import Mathlib

/-!
Verification development for the TranslateProject staleness checker
(src/check_translation.py).  Paths and other Python strings are embedded as
lists of characters; Python dictionaries (the JSON cache document) are
embedded as association lists that keep insertion order, exactly as CPython
dicts do; the remote GitHub client, the filesystem and the YAML front-matter
reader are external collaborators and are embedded as oracle functions
passed in explicitly.  Fallible code is embedded with Except; sys.exit(1)
becomes Except.error 1.
-/

namespace CheckTranslation

/-- A Python string (here: a file path, a sha, ...) as a list of characters. -/
abbrev FPath := List Char

/-- Char-by-char prefix match: stripPrefixQ pat s returns some t when
s = pat ++ t, and none otherwise.  This is the primitive behind the
embeddings of Python str.startswith, str.endswith and str.replace. -/
def stripPrefixQ : FPath → FPath → Option FPath
  | [], s => some s
  | _ :: _, [] => none
  | p :: ps, c :: cs => if p = c then stripPrefixQ ps cs else none

/-- Fuel-indexed worker for replaceAll.  At each position, if the pattern
(which must be nonempty) matches, the replacement is emitted and the scan
jumps past the matched occurrence; otherwise one character is copied.  This
is the left-to-right, non-overlapping semantics of Python str.replace. -/
def replaceAllFuel (pat rep : FPath) : Nat → FPath → FPath
  | 0, s => s
  | _ + 1, [] => []
  | fuel + 1, c :: rest =>
    match pat, stripPrefixQ pat (c :: rest) with
    | _ :: _, some tail => rep ++ replaceAllFuel pat rep fuel tail
    | _, _ => c :: replaceAllFuel pat rep fuel rest

/-- Embedding of Python s.replace(pat, rep) for a nonempty pattern: every
step consumes at least one character, so s.length fuel always suffices. -/
def replaceAll (pat rep s : FPath) : FPath :=
  replaceAllFuel pat rep s.length s

/-- Does pat occur as a contiguous substring of s?  (Python: pat in s.) -/
def containsSub (pat : FPath) : FPath → Bool
  | [] => (stripPrefixQ pat []).isSome
  | c :: rest => (stripPrefixQ pat (c :: rest)).isSome || containsSub pat rest

/-- Embedding of Python p.startswith(pat). -/
def startsWithQ (p pat : FPath) : Bool :=
  (stripPrefixQ pat p).isSome

/-- Embedding of Python p.endswith(ext). -/
def endsWithQ (p ext : FPath) : Bool :=
  (stripPrefixQ ext.reverse p.reverse).isSome

/-- The local collection root "sources/syzkaller/" from map_file_path. -/
def locRoot : FPath :=
  ['s', 'o', 'u', 'r', 'c', 'e', 's', '/',
   's', 'y', 'z', 'k', 'a', 'l', 'l', 'e', 'r', '/']

/-- The upstream root "docs/" from map_file_path. -/
def upsRoot : FPath := ['d', 'o', 'c', 's', '/']

/-- The leading current-directory marker "./" stripped by map_file_path. -/
def dotSlash : FPath := ['.', '/']

/-- Embedding of map_file_path (src/check_translation.py lines 178-186):
local-to-upstream replaces every occurrence of "sources/syzkaller/" with
"docs/" and then strips one leading "./"; upstream-to-local replaces every
occurrence of "docs/" with "sources/syzkaller/". -/
def map_file_path (file_path : FPath) (is_local2upstream : Bool) : FPath :=
  if is_local2upstream then
    let mapped := replaceAll locRoot upsRoot file_path
    if startsWithQ mapped dotSlash then mapped.drop 2 else mapped
  else
    replaceAll upsRoot locRoot file_path

/-- Embedding of the two-argument POSIX os.path.join used at
src/check_translation.py line 199. -/
def path_join (a b : FPath) : FPath :=
  if b.head? = some '/' then b
  else if a = [] then b
  else if a.getLast? = some '/' then a ++ b
  else a ++ '/' :: b

/-- The fixed "no collection needed" extension allow-list
['.drawio', '.patch', '.sh', '.py'] (line 194). -/
def no_need_to_collect : List FPath :=
  [['.', 'd', 'r', 'a', 'w', 'i', 'o'],
   ['.', 'p', 'a', 't', 'c', 'h'],
   ['.', 's', 'h'],
   ['.', 'p', 'y']]

/-- The loop of check_collection (lines 198-202): for each upstream path,
in listing order, record it when no local file exists at the joined mapped
path and no allow-listed extension matches. -/
def check_collection_loop (isfile : FPath → Bool) (hctt_proj_path : FPath) :
    List FPath → List FPath
  | [] => []
  | up :: rest =>
    let local_file_path := path_join hctt_proj_path (map_file_path up false)
    if !isfile local_file_path &&
        !(no_need_to_collect.any fun ext => endsWithQ up ext) then
      up :: check_collection_loop isfile hctt_proj_path rest
    else
      check_collection_loop isfile hctt_proj_path rest

/-- Embedding of check_collection (lines 189-203).  The upstream tree
listing and the filesystem existence test are external collaborators,
passed as the upstream_file_list argument and the isfile oracle. -/
def check_collection (isfile : FPath → Bool) (upstream_file_list : List FPath)
    (hctt_proj_path : FPath) : List FPath :=
  check_collection_loop isfile hctt_proj_path upstream_file_list

/-- One file's commit record, check_translation.py line 110 and 121/125:
a pair of [commit_sha, commit_date_string] pairs, each component nullable
(a lookup failure yields [None, None]). -/
structure FileCommitRecord where
  collected : Option String × Option String
  latest : Option String × Option String
deriving Repr, DecidableEq

/-- The staleness test of check_update line 225:
collected_commit_sha != latest_commit_sha, plain (Option) equality. -/
def isStale (r : FileCommitRecord) : Bool :=
  decide (r.collected.1 ≠ r.latest.1)

/-- The commits namespace of the cache document: the reserved cache_time
key (absent ⇒ commits.get('cache_time', 0) falls back to 0) plus the keyed
file records, in dict insertion order. -/
structure CommitsNS where
  cache_time : Option Int
  entries : List (FPath × FileCommitRecord)
deriving Repr, DecidableEq

/-- Association-list lookup, the embedding of Python dict indexing /
membership for the commits namespace. -/
def lookupC : List (FPath × FileCommitRecord) → FPath → Option FileCommitRecord
  | [], _ => none
  | (q, r) :: rest, p => if q = p then some r else lookupC rest p

/-- Python dict assignment commits[p] = r: replaces in place when the key
exists, appends at the end otherwise (CPython insertion-order semantics). -/
def setEntry : List (FPath × FileCommitRecord) → FPath → FileCommitRecord →
    List (FPath × FileCommitRecord)
  | [], p, r => [(p, r)]
  | (q, s) :: rest, p, r =>
    if q = p then (p, r) :: rest else (q, s) :: setEntry rest p r

/-- External collaborators of get_files_commits_and_dates: cd models
extract_frontmatter followed by the YYYYMMDD parse of collected_date
(lines 112-115; none = missing or malformed, the fatal case), and
commitAsOf models get_file_commit_and_date's observable result for an
upstream path and an until-instant (lines 120 and 124). -/
structure Oracles where
  cd : FPath → Option Int
  commitAsOf : FPath → Int → Option String × Option String

/-- The record built for one local file on the re-derivation path of
get_files_commits_and_dates (lines 110-125): both lookups go through the
mapped upstream path; collected uses the file's collected_date d, latest
uses the current instant nowDate. -/
def deriveRec (o : Oracles) (nowDate : Int) (p : FPath) (d : Int) :
    FileCommitRecord :=
  { collected := o.commitAsOf (map_file_path p true) d
    latest := o.commitAsOf (map_file_path p true) nowDate }

/-- The per-file loop of get_files_commits_and_dates (lines 105-125):
a file is skipped when its key is already present and the namespace-wide
cached_time (read once, before the loop) is still fresh; otherwise its
record is re-derived, which first requires a usable collected_date
(sys.exit(1), i.e. Except.error 1, when extraction fails) and sets the
changed flag. -/
def gfcadLoop (o : Oracles) (nowDate cachedTime now ttl : Int) :
    List (FPath × FileCommitRecord) → Bool → List FPath →
    Except Nat (List (FPath × FileCommitRecord) × Bool)
  | entries, changed, [] => .ok (entries, changed)
  | entries, changed, p :: rest =>
    if (lookupC entries p).isSome && decide (now - cachedTime < ttl) then
      gfcadLoop o nowDate cachedTime now ttl entries changed rest
    else
      match o.cd p with
      | none => .error 1
      | some d =>
        gfcadLoop o nowDate cachedTime now ttl
          (setEntry entries p (deriveRec o nowDate p d)) true rest

/-- Embedding of get_files_commits_and_dates (lines 96-135).  Returns the
merged commits namespace and the changed flag; when changed, cache_time is
set to now and the document is persisted (the Bool is also the
persisted-to-disk indicator), otherwise both are left untouched. -/
def get_files_commits_and_dates (o : Oracles) (nowDate : Int) (ns : CommitsNS)
    (local_file_list : List FPath) (now ttl : Int) :
    Except Nat (CommitsNS × Bool) :=
  match gfcadLoop o nowDate (ns.cache_time.getD 0) now ttl
      ns.entries false local_file_list with
  | .error e => .error e
  | .ok (entries, changed) =>
    .ok ({ cache_time := if changed then some now else ns.cache_time
           entries := entries }, changed)

/-- The reporting loop of check_update (lines 220-227): iterate the merged
commits mapping in dict order (the reserved cache_time key lives outside
entries, matching the explicit skip at line 221) and keep the stale paths. -/
def staleList : List (FPath × FileCommitRecord) → List FPath
  | [] => []
  | (p, r) :: rest => if isStale r then p :: staleList rest else staleList rest

/-- Embedding of check_update (lines 206-228).  The scanned local file
list (os.walk filtered to the translatable suffixes) is an external input;
the resulting need_update_files list is returned together with the updated
namespace and the changed flag. -/
def check_update (o : Oracles) (nowDate : Int) (ns : CommitsNS)
    (local_file_list : List FPath) (now ttl : Int) :
    Except Nat (List FPath × CommitsNS × Bool) :=
  match get_files_commits_and_dates o nowDate ns local_file_list now ttl with
  | .error e => .error e
  | .ok (ns2, changed) => .ok (staleList ns2.entries, ns2, changed)

/-- The cache TTL, GithubAnalyzer._cache_ttl = 86400 * 3 (line 21). -/
def cache_ttl : Int := 86400 * 3

/-- The files namespace of the cache document: the reserved cache_time key
(possibly absent in a hand-made or legacy document — _load_cache performs
no schema validation) plus listing payloads keyed by the pair
(target_path, exclude_dirs), embedding the Python key
str([target_path, exclude_dirs]). -/
structure FilesNS where
  cache_time : Option Int
  entries : List ((FPath × List FPath) × List FPath)
deriving Repr, DecidableEq

/-- Association-list lookup for the files namespace. -/
def lookupF : List ((FPath × List FPath) × List FPath) → FPath × List FPath →
    Option (List FPath)
  | [], _ => none
  | (k, v) :: rest, key => if k = key then some v else lookupF rest key

/-- Python dict assignment for the files namespace. -/
def setEntryF : List ((FPath × List FPath) × List FPath) →
    FPath × List FPath → List FPath →
    List ((FPath × List FPath) × List FPath)
  | [], key, v => [(key, v)]
  | (k, w) :: rest, key, v =>
    if k = key then (key, v) :: rest else (k, w) :: setEntryF rest key v

/-- Embedding of the cache logic of get_repo_files_recursively
(lines 59-94).  The remote traversal itself is the collaborator client;
its would-be result is the fetched argument.  Result components: the
returned listing, the updated files namespace, whether the fetch was
performed, and whether the document was persisted.  When the key is
present but the namespace lacks cache_time, line 67 raises KeyError,
embedded as Except.error (). -/
def get_repo_files_recursively (nsOpt : Option FilesNS) (target_path : FPath)
    (exclude_dirs : List FPath) (now ttl : Int) (fetched : List FPath) :
    Except Unit (List FPath × FilesNS × Bool × Bool) :=
  let cache_key := (target_path, exclude_dirs)
  match nsOpt with
  | some ns =>
    match lookupF ns.entries cache_key with
    | some v =>
      match ns.cache_time with
      | none => .error ()
      | some ct =>
        if now - ct < ttl then .ok (v, ns, false, false)
        else
          .ok (fetched,
            { cache_time := some now
              entries := setEntryF ns.entries cache_key fetched }, true, true)
    | none =>
      .ok (fetched,
        { cache_time := some now
          entries := setEntryF ns.entries cache_key fetched }, true, true)
  | none =>
    .ok (fetched,
      { cache_time := some now, entries := [(cache_key, fetched)] }, true, true)

/-- The collaborator client behind get_file_commit_and_date: getCommits
models repo.get_commits(path, until) (a list of shas, newest first, or a
raised exception), getCommitDate models
repo.get_commit(sha).commit.author.date (or a raised exception). -/
structure Client where
  getCommits : FPath → Int → Except Unit (List String)
  getCommitDate : String → Except Unit Int

/-- Model of datetime.strftime on a commit author date. -/
def fmt_date (d : Int) : String := toString d

/-- Embedding of get_file_commit_and_date (lines 138-153).  Every failure
inside the try block — the client raising on either call, or the
no-commit-found case (where the log f-string at line 149 dereferences
latest_commit.sha on None, raising AttributeError) — is caught by the
except handler, which returns the null pair [None, None]. -/
def get_file_commit_and_date (c : Client) (upstream_file_path : FPath)
    (until_date : Int) : Option String × Option String :=
  match c.getCommits upstream_file_path until_date with
  | .error _ => (none, none)
  | .ok commits =>
    match commits.head? with
    | none => (none, none)
    | some sha =>
      match c.getCommitDate sha with
      | .error _ => (none, none)
      | .ok d => (some sha, some (fmt_date d))

/-- Decidable equality on Except, for evaluating the concrete runs. -/
instance {ε : Type u} {α : Type v} [DecidableEq ε] [DecidableEq α] :
    DecidableEq (Except ε α) := fun a b =>
  match a, b with
  | .error e, .error f => decidable_of_iff (e = f) (by simp)
  | .ok x, .ok y => decidable_of_iff (x = y) (by simp)
  | .error _, .ok _ => isFalse (fun h => Except.noConfusion h)
  | .ok _, .error _ => isFalse (fun h => Except.noConfusion h)

/-! Concrete fixtures used by the counterexamples and witnesses. -/

/-- Concrete round-trip fixture: a path under the local root whose
remainder contains a "docs/" segment. -/
def c6bad : FPath := locRoot ++ upsRoot ++ ['a']

/-- Concrete pass-through fixture: the path "./a". -/
def c7bad : FPath := ['.', '/', 'a']

/-- Fixture for the C4 witness: a files namespace holding one listing
under the key ("docs/", []), refreshed at instant 900. -/
def nsF : FilesNS :=
  { cache_time := some 900
    entries := [((upsRoot, []), [upsRoot ++ ['a']])] }

/-- Fixture for the C10 witness: the same namespace but with the
cache_time key missing, as a schema-less legacy document could contain. -/
def nsFmissing : FilesNS :=
  { cache_time := none
    entries := [((upsRoot, []), [upsRoot ++ ['a']])] }

/-- A constant-behaviour oracle used by the concrete runs: every file has
collected_date 20240101 and both commit lookups resolve to sha "aaa". -/
def oracle0 : Oracles :=
  { cd := fun _ => some 20240101
    commitAsOf := fun _ _ => (some "aaa", some "2024") }

/-- A stale record: the collected sha differs from the latest sha. -/
def staleRec : FileCommitRecord :=
  { collected := (some "aaa", some "2024")
    latest := (some "bbb", some "2025") }

/-- The path "g" of a cached entry that is not part of any current scan. -/
def ghostP : FPath := ['g']

/-- A commits namespace holding only the ghost entry, refreshed at 100. -/
def ns1 : CommitsNS :=
  { cache_time := some 100, entries := [(ghostP, staleRec)] }

/-- An oracle whose front-matter extraction always fails. -/
def oracleBad : Oracles :=
  { cd := fun _ => none, commitAsOf := fun _ _ => (none, none) }

/-- The path "b" of a file with unusable front matter. -/
def badP : FPath := ['b']

/-- A commits namespace with a fresh cached entry for the bad file. -/
def nsBad : CommitsNS :=
  { cache_time := some 100, entries := [(badP, staleRec)] }

/-! Helper lemmas about the string-replace embedding. -/

theorem stripPrefixQ_self_append :
    ∀ (pat t : FPath), stripPrefixQ pat (pat ++ t) = some t
  | [], _ => rfl
  | p :: ps, t => by simp [stripPrefixQ, stripPrefixQ_self_append ps t]

theorem replaceAllFuel_no_occur (pat rep : FPath) :
    ∀ (s : FPath), containsSub pat s = false →
      ∀ fuel, replaceAllFuel pat rep fuel s = s := by
  intro s
  induction s with
  | nil => intro _ fuel; cases fuel <;> rfl
  | cons c rest ih =>
    intro h fuel
    simp only [containsSub, Bool.or_eq_false_iff] at h
    obtain ⟨h1, h2⟩ := h
    have hs : stripPrefixQ pat (c :: rest) = none := by
      cases hq : stripPrefixQ pat (c :: rest)
      · rfl
      · rw [hq] at h1; simp at h1
    cases fuel with
    | zero => rfl
    | succ fuel =>
      simp only [replaceAllFuel]
      split
      · rename_i heqS
        rw [hs] at heqS
        exact Option.noConfusion heqS
      · simp [ih h2 fuel]

theorem replaceAll_no_occur (pat rep s : FPath)
    (h : containsSub pat s = false) : replaceAll pat rep s = s :=
  replaceAllFuel_no_occur pat rep s h s.length

theorem replaceAll_append_no_occur (pat rep rest : FPath) (hne : pat ≠ [])
    (h : containsSub pat rest = false) :
    replaceAll pat rep (pat ++ rest) = rep ++ rest := by
  obtain ⟨p, ps, rfl⟩ : ∃ p ps, pat = p :: ps := by
    cases pat
    · exact absurd rfl hne
    · exact ⟨_, _, rfl⟩
  have hlen : ((p :: ps) ++ rest).length = (ps.length + rest.length) + 1 := by
    simp [List.length_append]
  show replaceAllFuel (p :: ps) rep ((p :: ps) ++ rest).length
      ((p :: ps) ++ rest) = rep ++ rest
  rw [hlen]
  have hcons : (p :: ps) ++ rest = p :: (ps ++ rest) := rfl
  rw [hcons]
  have hsp : stripPrefixQ (p :: ps) (p :: (ps ++ rest)) = some rest :=
    stripPrefixQ_self_append (p :: ps) rest
  simp only [replaceAllFuel]
  split
  · rename_i heqS
    rw [hsp] at heqS
    cases heqS
    simp [replaceAllFuel_no_occur (p :: ps) rep rest h]
  · rename_i hfail
    exact absurd (hfail p ps rest rfl hsp) not_false

theorem replaceAllFuel_nil (pat rep : FPath) :
    ∀ fuel, replaceAllFuel pat rep fuel [] = []
  | 0 => rfl
  | _ + 1 => rfl

theorem stripPrefixQ_some_eq :
    ∀ (pat s t : FPath), stripPrefixQ pat s = some t → s = pat ++ t := by
  intro pat
  induction pat with
  | nil =>
    intro s t h
    simp only [stripPrefixQ, Option.some.injEq] at h
    simp [h]
  | cons p ps ih =>
    intro s t h
    cases s with
    | nil => exact Option.noConfusion h
    | cons c cs =>
      simp only [stripPrefixQ] at h
      by_cases hpc : p = c
      · rw [if_pos hpc] at h
        have hcs := ih cs t h
        simp [← hpc, hcs]
      · rw [if_neg hpc] at h
        exact Option.noConfusion h

theorem replaceAllFuel_cons_some (pat rep : FPath) (f : Nat) (c : Char)
    (cs t : FPath) (p : Char) (ps : FPath) (hp : pat = p :: ps)
    (hst : stripPrefixQ pat (c :: cs) = some t) :
    replaceAllFuel pat rep (f + 1) (c :: cs) =
      rep ++ replaceAllFuel pat rep f t := by
  subst hp
  simp only [replaceAllFuel]
  rw [hst]

theorem replaceAllFuel_cons_none (pat rep : FPath) (f : Nat) (c : Char)
    (cs : FPath) (hst : stripPrefixQ pat (c :: cs) = none) :
    replaceAllFuel pat rep (f + 1) (c :: cs) =
      c :: replaceAllFuel pat rep f cs := by
  cases pat with
  | nil => simp [stripPrefixQ] at hst
  | cons p ps =>
    simp only [replaceAllFuel]
    rw [hst]

theorem replaceAllFuel_cons_nilpat (rep : FPath) (f : Nat) (c : Char)
    (cs : FPath) :
    replaceAllFuel [] rep (f + 1) (c :: cs) =
      c :: replaceAllFuel [] rep f cs := rfl

theorem replaceAllFuel_add (pat rep : FPath) :
    ∀ (fuel : Nat) (s : FPath) (extra : Nat), s.length ≤ fuel →
      replaceAllFuel pat rep (fuel + extra) s = replaceAllFuel pat rep fuel s := by
  intro fuel
  induction fuel with
  | zero =>
    intro s extra hs
    have hnil : s = [] := List.length_eq_zero.mp (Nat.le_zero.mp hs)
    subst hnil
    rw [replaceAllFuel_nil, replaceAllFuel_nil]
  | succ f ih =>
    intro s extra hs
    cases s with
    | nil => rw [replaceAllFuel_nil, replaceAllFuel_nil]
    | cons c cs =>
      have hcs : cs.length ≤ f := by
        have hx : cs.length + 1 ≤ f + 1 := hs
        omega
      have hfe : f + 1 + extra = (f + extra) + 1 := by omega
      rw [hfe]
      cases pat with
      | nil =>
        rw [replaceAllFuel_cons_nilpat, replaceAllFuel_cons_nilpat]
        exact congrArg (c :: ·) (ih cs extra hcs)
      | cons p ps =>
        cases hst : stripPrefixQ (p :: ps) (c :: cs) with
        | none =>
          rw [replaceAllFuel_cons_none _ rep (f + extra) c cs hst,
            replaceAllFuel_cons_none _ rep f c cs hst]
          exact congrArg (c :: ·) (ih cs extra hcs)
        | some tail =>
          rw [replaceAllFuel_cons_some _ rep (f + extra) c cs tail p ps rfl hst,
            replaceAllFuel_cons_some _ rep f c cs tail p ps rfl hst]
          have hseq := stripPrefixQ_some_eq (p :: ps) (c :: cs) tail hst
          have hl := congrArg List.length hseq
          simp [List.length_append] at hl
          have hlen : tail.length ≤ f := by omega
          exact congrArg (rep ++ ·) (ih tail extra hlen)

theorem replaceAll_append_front (pat rep X : FPath) (hne : pat ≠ []) :
    replaceAll pat rep (pat ++ X) = rep ++ replaceAll pat rep X := by
  obtain ⟨p, ps, rfl⟩ : ∃ p ps, pat = p :: ps := by
    cases pat
    · exact absurd rfl hne
    · exact ⟨_, _, rfl⟩
  have hsp : stripPrefixQ (p :: ps) (p :: (ps ++ X)) = some X :=
    stripPrefixQ_self_append (p :: ps) X
  show replaceAllFuel (p :: ps) rep ((p :: ps) ++ X).length ((p :: ps) ++ X) =
    rep ++ replaceAllFuel (p :: ps) rep X.length X
  have hlen : ((p :: ps) ++ X).length = (ps.length + X.length) + 1 := by
    simp [List.length_append]
  rw [hlen]
  rw [show (p :: ps) ++ X = p :: (ps ++ X) from rfl]
  rw [replaceAllFuel_cons_some (p :: ps) rep (ps.length + X.length) p
    (ps ++ X) X p ps rfl hsp]
  congr 1
  rw [Nat.add_comm ps.length X.length]
  exact replaceAllFuel_add (p :: ps) rep X.length X ps.length (Nat.le_refl _)

theorem replaceAll_cons_of_ne (pat rep : FPath) (c : Char) (cs : FPath)
    (h : stripPrefixQ pat (c :: cs) = none) :
    replaceAll pat rep (c :: cs) = c :: replaceAll pat rep cs := by
  show replaceAllFuel pat rep (c :: cs).length (c :: cs) =
    c :: replaceAllFuel pat rep cs.length cs
  rw [show (c :: cs).length = cs.length + 1 from rfl]
  exact replaceAllFuel_cons_none pat rep cs.length c cs h

theorem containsSub_append_false (pat : FPath) :
    ∀ (x y : FPath), containsSub pat (x ++ y) = false →
      containsSub pat y = false := by
  intro x
  induction x with
  | nil => intro y h; simpa using h
  | cons a x2 ih =>
    intro y h
    simp only [List.cons_append, containsSub, Bool.or_eq_false_iff] at h
    exact ih y h.2

/-- The forward substitution (locRoot to upsRoot) never creates a match
for a 'd'-free pattern at a kept position: if such a pattern is a prefix
of the transformed string, it was already a prefix of the original.  The
inserted blocks all start with 'd', so a 'd'-free pattern can only run
through characters copied unchanged. -/
theorem forward_no_new_docs :
    ∀ (fuel : Nat) (s u : FPath), 'd' ∉ u →
      (stripPrefixQ u (replaceAllFuel locRoot upsRoot fuel s)).isSome = true →
      (stripPrefixQ u s).isSome = true := by
  intro fuel
  induction fuel with
  | zero => intro s u _ h; exact h
  | succ f ih =>
    intro s u hdu h
    cases s with
    | nil =>
      rw [replaceAllFuel_nil] at h
      exact h
    | cons c cs =>
      cases u with
      | nil => rfl
      | cons x u2 =>
        have hloc : locRoot = 's' :: ['o', 'u', 'r', 'c', 'e', 's', '/',
            's', 'y', 'z', 'k', 'a', 'l', 'l', 'e', 'r', '/'] := rfl
        cases hst : stripPrefixQ locRoot (c :: cs) with
        | some t =>
          rw [replaceAllFuel_cons_some locRoot upsRoot f c cs t 's' _ hloc
            hst] at h
          rw [show upsRoot ++ replaceAllFuel locRoot upsRoot f t =
            'd' :: (['o', 'c', 's', '/'] ++ replaceAllFuel locRoot upsRoot f t)
            from rfl] at h
          simp only [stripPrefixQ] at h
          by_cases hx : x = 'd'
          · exact absurd (by rw [← hx]; exact List.mem_cons_self x u2) hdu
          · rw [if_neg hx] at h
            simp at h
        | none =>
          rw [replaceAllFuel_cons_none locRoot upsRoot f c cs hst] at h
          simp only [stripPrefixQ] at h ⊢
          by_cases hx : x = c
          · rw [if_pos hx] at h ⊢
            exact ih cs u2 (fun hm => hdu (List.mem_cons_of_mem x hm)) h
          · rw [if_neg hx] at h
            simp at h

/-- Round trip over the forward fuel: on a string with no "docs/"
occurrence, substituting locRoot with upsRoot and then upsRoot with
locRoot is the identity — locRoot occurrences in the string are rewritten
forward and restored backward, and by forward_no_new_docs the backward
pass matches exactly the inserted blocks. -/
theorem roundtripFuel_no_docs :
    ∀ (fuel : Nat) (s : FPath), containsSub upsRoot s = false →
      replaceAll upsRoot locRoot (replaceAllFuel locRoot upsRoot fuel s) =
        s := by
  intro fuel
  induction fuel with
  | zero => intro s h; exact replaceAll_no_occur upsRoot locRoot s h
  | succ f ih =>
    intro s h
    cases s with
    | nil => rfl
    | cons c cs =>
      have hloc : locRoot = 's' :: ['o', 'u', 'r', 'c', 'e', 's', '/',
          's', 'y', 'z', 'k', 'a', 'l', 'l', 'e', 'r', '/'] := rfl
      cases hst : stripPrefixQ locRoot (c :: cs) with
      | some t =>
        rw [replaceAllFuel_cons_some locRoot upsRoot f c cs t 's' _ hloc hst]
        have hseq : (c :: cs) = locRoot ++ t :=
          stripPrefixQ_some_eq locRoot (c :: cs) t hst
        have ht : containsSub upsRoot t = false :=
          containsSub_append_false upsRoot locRoot t (by rw [← hseq]; exact h)
        rw [replaceAll_append_front upsRoot locRoot _ (by decide), ih t ht]
        exact hseq.symm
      | none =>
        simp only [containsSub, Bool.or_eq_false_iff] at h
        rw [replaceAllFuel_cons_none locRoot upsRoot f c cs hst]
        have hnm : stripPrefixQ upsRoot
            (c :: replaceAllFuel locRoot upsRoot f cs) = none := by
          cases hq : stripPrefixQ upsRoot
              (c :: replaceAllFuel locRoot upsRoot f cs) with
          | none => rfl
          | some w =>
            exfalso
            rw [show upsRoot = 'd' :: ['o', 'c', 's', '/'] from rfl] at hq
            simp only [stripPrefixQ] at hq
            by_cases hx : 'd' = c
            · rw [if_pos hx] at hq
              have hq2 : stripPrefixQ ['o', 'c', 's', '/']
                  (replaceAllFuel locRoot upsRoot f cs) = some w := hq
              have h4 : (stripPrefixQ ['o', 'c', 's', '/']
                  (replaceAllFuel locRoot upsRoot f cs)).isSome = true := by
                rw [hq2]; rfl
              have h5 := forward_no_new_docs f cs ['o', 'c', 's', '/']
                (by decide) h4
              have hh1 := h.1
              rw [show upsRoot = 'd' :: ['o', 'c', 's', '/'] from rfl] at hh1
              simp only [stripPrefixQ] at hh1
              rw [if_pos hx] at hh1
              rw [hh1] at h5
              exact Bool.noConfusion h5
            · rw [if_neg hx] at hq
              exact Option.noConfusion hq
        rw [replaceAll_cons_of_ne upsRoot locRoot c _ hnm, ih cs h.2]

/-- On a string with no "docs/" occurrence, the local-to-upstream
substitution followed by the upstream-to-local substitution is the
identity, regardless of how many locRoot occurrences the string holds. -/
theorem replaceAll_roundtrip_no_docs (s : FPath)
    (h : containsSub upsRoot s = false) :
    replaceAll upsRoot locRoot (replaceAll locRoot upsRoot s) = s :=
  roundtripFuel_no_docs s.length s h

/-- Claim C2: a file commit record is flagged stale by the comparator iff
the collected sha and the latest sha differ under plain equality; two
distinct non-null shas are stale, two equal non-null shas are not, a null
against a non-null is stale, and null against null is not stale. -/
theorem c2_staleness_comparator :
    (∀ r : FileCommitRecord, isStale r = true ↔ r.collected.1 ≠ r.latest.1) ∧
    (∀ (a b : String) (x y : Option String),
      isStale ⟨(some a, x), (some b, y)⟩ = true ↔ a ≠ b) ∧
    (∀ (a : String) (x y : Option String),
      isStale ⟨(some a, x), (none, y)⟩ = true) ∧
    (∀ (b : String) (x y : Option String),
      isStale ⟨(none, x), (some b, y)⟩ = true) ∧
    (∀ (x y : Option String), isStale ⟨(none, x), (none, y)⟩ = false) := by
  refine ⟨fun r => ?_, fun a b x y => ?_, fun a x y => ?_, fun b x y => ?_,
    fun x y => ?_⟩ <;> simp [isStale]

/-- Witness for claim C2: the record with collected sha "aaa" and latest
sha "bbb" is flagged stale. -/
theorem c2_staleness_comparator_witness : isStale staleRec = true :=
  (c2_staleness_comparator.2.1 "aaa" "bbb" (some "2024")
    (some "2025")).mpr (by decide)

/-- Claim C3: the collection audit records an upstream file as uncollected
iff no local file exists at its joined mapped local path and its extension
is not in the fixed allow-list; the output preserves the traversal order of
the upstream listing (it is the order-preserving filter of that listing). -/
theorem c3_collection_audit (isfile : FPath → Bool)
    (upstream_file_list : List FPath) (hctt_proj_path : FPath) :
    check_collection isfile upstream_file_list hctt_proj_path =
      upstream_file_list.filter (fun up =>
        !isfile (path_join hctt_proj_path (map_file_path up false)) &&
        !(no_need_to_collect.any fun ext => endsWithQ up ext)) ∧
    (∀ up, up ∈ check_collection isfile upstream_file_list hctt_proj_path ↔
      up ∈ upstream_file_list ∧
      isfile (path_join hctt_proj_path (map_file_path up false)) = false ∧
      (no_need_to_collect.any fun ext => endsWithQ up ext) = false) := by
  have hfil : ∀ l : List FPath, check_collection_loop isfile hctt_proj_path l =
      l.filter (fun up =>
        !isfile (path_join hctt_proj_path (map_file_path up false)) &&
        !(no_need_to_collect.any fun ext => endsWithQ up ext)) := by
    intro l
    induction l with
    | nil => rfl
    | cons up rest ih =>
      simp only [check_collection_loop, List.filter_cons]
      split <;> rename_i hcond <;> simp [hcond] at * <;> simp [ih, hcond]
  constructor
  · exact hfil upstream_file_list
  · intro up
    rw [show check_collection isfile upstream_file_list hctt_proj_path =
        check_collection_loop isfile hctt_proj_path upstream_file_list from rfl,
      hfil upstream_file_list, List.mem_filter]
    simp [Bool.and_eq_true, Bool.not_eq_true']

/-- Witness for claim C3: the upstream file "docs/a" with no local
counterpart is reported uncollected. -/
theorem c3_collection_audit_witness :
    (upsRoot ++ ['a']) ∈
      check_collection (fun _ => false) [upsRoot ++ ['a']] ['.'] :=
  ((c3_collection_audit (fun _ => false) [upsRoot ++ ['a']] ['.']).2
    (upsRoot ++ ['a'])).mpr ⟨by simp, rfl, by decide⟩

/-- Claim C6 counterexample: c6bad begins with the local collection prefix
"sources/syzkaller/", yet mapping local-to-upstream and back does not
return the original path — the substitution rewrites every occurrence, so
the "docs/" remainder segment also becomes "sources/syzkaller/". -/
theorem c6_roundtrip_counterexample :
    startsWithQ c6bad locRoot = true ∧
    map_file_path (map_file_path c6bad true) false ≠ c6bad := by
  decide

/-- Claim C6 (amended): for every path of the form "sources/syzkaller/"
followed by a remainder that contains no "docs/" substring, mapping
local-to-upstream and then back returns the original path.  The remainder
may itself contain further "sources/syzkaller/" occurrences: those are
rewritten to "docs/" on the way out and restored on the way back; only a
pre-existing "docs/" in the remainder breaks the round trip (see the
counterexample). -/
theorem c6_roundtrip_amended (rest : FPath)
    (h : containsSub upsRoot rest = false) :
    map_file_path (map_file_path (locRoot ++ rest) true) false =
      locRoot ++ rest := by
  have hup : map_file_path (locRoot ++ rest) true =
      upsRoot ++ replaceAll locRoot upsRoot rest := by
    simp only [map_file_path, if_true]
    rw [replaceAll_append_front locRoot upsRoot rest (by decide)]
    have hsw : startsWithQ (upsRoot ++ replaceAll locRoot upsRoot rest)
        dotSlash = false := by rfl
    rw [hsw]
    simp
  rw [hup]
  show replaceAll upsRoot locRoot (upsRoot ++ replaceAll locRoot upsRoot rest) =
    locRoot ++ rest
  rw [replaceAll_append_front upsRoot locRoot _ (by decide)]
  rw [replaceAll_roundtrip_no_docs rest h]

/-- Witness for the amended claim C6, at the remainder
"sources/syzkaller/a", which contains the local prefix again but no
"docs/". -/
theorem c6_roundtrip_amended_witness :
    map_file_path (map_file_path (locRoot ++ (locRoot ++ ['a'])) true) false =
      locRoot ++ (locRoot ++ ['a']) :=
  c6_roundtrip_amended (locRoot ++ ['a']) (by decide)

/-- Claim C7 counterexample: "./a" matches neither the local prefix
pattern nor the upstream prefix pattern (neither as a leading prefix nor
as a substring anywhere), yet map_file_path changes it in the
local-to-upstream direction, because that direction also strips a leading
"./" marker. -/
theorem c7_passthrough_counterexample :
    containsSub locRoot c7bad = false ∧
    containsSub upsRoot c7bad = false ∧
    startsWithQ c7bad locRoot = false ∧
    startsWithQ c7bad upsRoot = false ∧
    map_file_path c7bad true ≠ c7bad := by
  decide

/-- Claim C7 (amended): every path that contains no occurrence of either
prefix pattern and does not begin with the "./" marker passes through
map_file_path unchanged, in both directions. -/
theorem c7_passthrough_amended (p : FPath)
    (h1 : containsSub locRoot p = false)
    (h2 : containsSub upsRoot p = false)
    (h3 : startsWithQ p dotSlash = false) :
    map_file_path p true = p ∧ map_file_path p false = p := by
  constructor
  · simp only [map_file_path, if_true]
    rw [replaceAll_no_occur locRoot upsRoot p h1, h3]
    simp
  · simp only [map_file_path, if_false]
    exact replaceAll_no_occur upsRoot locRoot p h2

/-- Witness for the amended claim C7, at the path "a". -/
theorem c7_passthrough_amended_witness :
    map_file_path ['a'] true = ['a'] ∧ map_file_path ['a'] false = ['a'] :=
  c7_passthrough_amended ['a'] (by decide) (by decide) (by decide)

/-- Claim C9: for every client behavior, upstream path and supplied
instant, get_file_commit_and_date returns either a fully non-null
[sha, date-string] pair or the null pair — in particular whenever the
client reports no commits touching the path — and, the result being a
plain pair, no exception escapes this boundary. -/
theorem c9_commit_lookup_shape :
    (∀ (c : Client) (p : FPath) (until_date : Int),
      (∃ sha ds, get_file_commit_and_date c p until_date =
        (some sha, some ds)) ∨
      get_file_commit_and_date c p until_date = (none, none)) ∧
    (∀ (c : Client) (p : FPath) (until_date : Int),
      c.getCommits p until_date = .ok [] →
      get_file_commit_and_date c p until_date = (none, none)) := by
  constructor
  · intro c p until_date
    cases h1 : c.getCommits p until_date with
    | error e => exact Or.inr (by simp [get_file_commit_and_date, h1])
    | ok commits =>
      cases commits with
      | nil => exact Or.inr (by simp [get_file_commit_and_date, h1])
      | cons sha rest =>
        cases h2 : c.getCommitDate sha with
        | error e => exact Or.inr (by simp [get_file_commit_and_date, h1, h2])
        | ok d =>
          exact Or.inl ⟨sha, fmt_date d,
            by simp [get_file_commit_and_date, h1, h2]⟩
  · intro c p until_date h
    simp [get_file_commit_and_date, h]

/-- Witness for claim C9: a client with an empty commit history yields the
null pair. -/
theorem c9_commit_lookup_shape_witness :
    get_file_commit_and_date
      ⟨fun _ _ => .ok [], fun _ => .ok 0⟩ ['a'] 0 = (none, none) :=
  c9_commit_lookup_shape.2 ⟨fun _ _ => .ok [], fun _ => .ok 0⟩ ['a'] 0 rfl

/-- Claim C10: the directory-listing lookup raises an uncaught key error
exactly when the files namespace contains the queried key but lacks the
cache_time key; in particular, under the document invariant that a present
namespace always carries cache_time, the access never fails, while a
schema-less document with the key but no cache_time makes it fail instead
of being treated as expired.  An absent namespace never fails. -/
theorem c10_cache_time_keyerror (ns : FilesNS) (target_path : FPath)
    (exclude_dirs : List FPath) (now ttl : Int) (fetched : List FPath) :
    (get_repo_files_recursively (some ns) target_path exclude_dirs now ttl
        fetched = .error () ↔
      (lookupF ns.entries (target_path, exclude_dirs)).isSome = true ∧
      ns.cache_time = none) ∧
    (∀ e, get_repo_files_recursively none target_path exclude_dirs now ttl
        fetched ≠ .error e) := by
  constructor
  · unfold get_repo_files_recursively
    cases hlk : lookupF ns.entries (target_path, exclude_dirs) with
    | none => simp [hlk]
    | some v =>
      cases hct : ns.cache_time with
      | none => simp [hlk, hct]
      | some ct =>
        simp only [hlk, hct]
        constructor
        · intro h
          split at h <;> exact Except.noConfusion h
        · rintro ⟨-, h⟩
          exact Option.noConfusion h
  · intro e
    unfold get_repo_files_recursively
    exact fun h => Except.noConfusion h

/-- Witness for claim C10: a files namespace that holds the queried key
but no cache_time makes the lookup raise. -/
theorem c10_cache_time_keyerror_witness :
    get_repo_files_recursively (some nsFmissing) upsRoot [] 1000 cache_ttl
      [] = .error () :=
  ((c10_cache_time_keyerror nsFmissing upsRoot [] 1000 cache_ttl []).1).mpr
    ⟨by decide, rfl⟩

/-- Claim C4: the directory-listing lookup returns the cached value
without fetching or saving when the key is present and now minus the
namespace cache_time is strictly below the TTL; otherwise it fetches,
stores the result under the key, sets the namespace cache_time to now and
persists, and the same happens when the namespace itself is absent.  In
particular cache_time = now - ttl - 1 forces a refetch and
cache_time = now - ttl + 1 does not. -/
theorem c4_files_cache_contract (ns : FilesNS) (target_path : FPath)
    (exclude_dirs : List FPath) (now ttl : Int) (fetched v : List FPath)
    (ct : Int) :
    (lookupF ns.entries (target_path, exclude_dirs) = some v →
      ns.cache_time = some ct →
      ((now - ct < ttl →
        get_repo_files_recursively (some ns) target_path exclude_dirs now ttl
          fetched = .ok (v, ns, false, false)) ∧
       (¬(now - ct < ttl) →
        get_repo_files_recursively (some ns) target_path exclude_dirs now ttl
          fetched = .ok (fetched,
            { cache_time := some now
              entries := setEntryF ns.entries (target_path, exclude_dirs)
                fetched }, true, true)))) ∧
    (lookupF ns.entries (target_path, exclude_dirs) = none →
      get_repo_files_recursively (some ns) target_path exclude_dirs now ttl
        fetched = .ok (fetched,
          { cache_time := some now
            entries := setEntryF ns.entries (target_path, exclude_dirs)
              fetched }, true, true)) ∧
    (get_repo_files_recursively none target_path exclude_dirs now ttl
      fetched = .ok (fetched,
        { cache_time := some now
          entries := [((target_path, exclude_dirs), fetched)] },
        true, true)) ∧
    (ns.cache_time = some (now - ttl - 1) →
      lookupF ns.entries (target_path, exclude_dirs) = some v →
      (get_repo_files_recursively (some ns) target_path exclude_dirs now ttl
        fetched).map (fun r => r.2.2.1) = .ok true) ∧
    (ns.cache_time = some (now - ttl + 1) →
      lookupF ns.entries (target_path, exclude_dirs) = some v →
      (get_repo_files_recursively (some ns) target_path exclude_dirs now ttl
        fetched).map (fun r => r.2.2.1) = .ok false) := by
  refine ⟨fun hlk hct => ⟨fun hfresh => ?_, fun hstale => ?_⟩,
    fun hlk => ?_, ?_, fun hct hlk => ?_, fun hct hlk => ?_⟩
  · simp [get_repo_files_recursively, hlk, hct, hfresh]
  · simp [get_repo_files_recursively, hlk, hct, hstale]
  · simp [get_repo_files_recursively, hlk]
  · simp [get_repo_files_recursively]
  · have hstale : ¬(now - (now - ttl - 1) < ttl) := by omega
    simp [get_repo_files_recursively, hlk, hct, hstale, Except.map]
  · have hfresh : now - (now - ttl + 1) < ttl := by omega
    simp [get_repo_files_recursively, hlk, hct, hfresh, Except.map]

/-- Witness for claim C4: at instant 1000 with the three-day TTL, the
cached listing is returned with no fetch and no save. -/
theorem c4_files_cache_contract_witness :
    get_repo_files_recursively (some nsF) upsRoot [] 1000 cache_ttl
      [['x']] = .ok ([upsRoot ++ ['a']], nsF, false, false) :=
  ((c4_files_cache_contract nsF upsRoot [] 1000 cache_ttl [['x']]
    [upsRoot ++ ['a']] 900).1 (by decide) rfl).1 (by decide)

/-! Helper lemmas about the association-list embedding of dicts. -/

theorem lookupC_setEntry_self (l : List (FPath × FileCommitRecord))
    (p : FPath) (r : FileCommitRecord) :
    lookupC (setEntry l p r) p = some r := by
  induction l with
  | nil => simp [setEntry, lookupC]
  | cons hd tl ih =>
    obtain ⟨q, s⟩ := hd
    by_cases h : q = p <;> simp [setEntry, lookupC, h, ih]

theorem lookupC_setEntry_ne (l : List (FPath × FileCommitRecord))
    (p q : FPath) (r : FileCommitRecord) (h : q ≠ p) :
    lookupC (setEntry l p r) q = lookupC l q := by
  induction l with
  | nil => simp [setEntry, lookupC, Ne.symm h]
  | cons hd tl ih =>
    obtain ⟨k, s⟩ := hd
    by_cases hk : k = p
    · subst hk
      simp [setEntry, lookupC, Ne.symm h]
    · simp [setEntry, lookupC, hk, ih]

theorem setEntry_of_lookup_none (l : List (FPath × FileCommitRecord))
    (p : FPath) (r : FileCommitRecord) (h : lookupC l p = none) :
    setEntry l p r = l ++ [(p, r)] := by
  induction l with
  | nil => rfl
  | cons hd tl ih =>
    obtain ⟨q, s⟩ := hd
    by_cases hq : q = p
    · rw [lookupC, if_pos hq] at h
      exact Option.noConfusion h
    · rw [lookupC, if_neg hq] at h
      simp [setEntry, hq, ih h]

theorem lookupC_append_of_none (a b : List (FPath × FileCommitRecord))
    (p : FPath) (h : lookupC a p = none) :
    lookupC (a ++ b) p = lookupC b p := by
  induction a with
  | nil => rfl
  | cons hd tl ih =>
    obtain ⟨q, s⟩ := hd
    by_cases hq : q = p
    · rw [lookupC, if_pos hq] at h
      exact Option.noConfusion h
    · rw [lookupC, if_neg hq] at h
      simp [lookupC, hq, ih h]

theorem lookupC_map_of_not_mem (g : FPath → FileCommitRecord)
    (l : List FPath) (q : FPath) (h : q ∉ l) :
    lookupC (l.map fun p => (p, g p)) q = none := by
  induction l with
  | nil => rfl
  | cons hd tl ih =>
    simp only [List.mem_cons, not_or] at h
    simp [lookupC, Ne.symm h.1, ih h.2]

theorem staleList_map (g : FPath → FileCommitRecord) (l : List FPath) :
    staleList (l.map fun p => (p, g p)) =
      l.filter fun p => isStale (g p) := by
  induction l with
  | nil => rfl
  | cons hd tl ih =>
    simp only [List.map_cons, staleList, List.filter_cons]
    by_cases h : isStale (g hd) = true <;> simp [h, ih]

/-- Running the per-file loop on paths with no pre-existing cache entry
(and no duplicates) derives every path, appending the records in scan
order; the changed flag is raised exactly when at least one path was
processed. -/
theorem gfcadLoop_cold (o : Oracles) (nowDate ct now ttl : Int) :
    ∀ (paths : List FPath) (acc : List (FPath × FileCommitRecord))
      (changed : Bool),
      (∀ p ∈ paths, (o.cd p).isSome) →
      (∀ p ∈ paths, lookupC acc p = none) →
      paths.Nodup →
      gfcadLoop o nowDate ct now ttl acc changed paths =
        .ok (acc ++ paths.map
              (fun p => (p, deriveRec o nowDate p ((o.cd p).getD 0))),
             changed || !paths.isEmpty) := by
  intro paths
  induction paths with
  | nil => intro acc changed _ _ _; simp [gfcadLoop]
  | cons p rest ih =>
    intro acc changed hcd hacc hnd
    have hlp : lookupC acc p = none := hacc p (List.mem_cons_self p rest)
    obtain ⟨d, hd⟩ :=
      Option.isSome_iff_exists.mp (hcd p (List.mem_cons_self p rest))
    simp only [List.nodup_cons] at hnd
    have hstep : gfcadLoop o nowDate ct now ttl acc changed (p :: rest) =
        gfcadLoop o nowDate ct now ttl
          (setEntry acc p (deriveRec o nowDate p d)) true rest := by
      simp [gfcadLoop, hlp, hd]
    rw [hstep, setEntry_of_lookup_none acc p _ hlp,
      ih (acc ++ [(p, deriveRec o nowDate p d)]) true
        (fun x hx => hcd x (List.mem_cons_of_mem p hx))
        (fun x hx => by
          have hxp : x ≠ p := fun he => hnd.1 (he ▸ hx)
          rw [lookupC_append_of_none _ _ _ (hacc x (List.mem_cons_of_mem p hx))]
          simp [lookupC, Ne.symm hxp])
        hnd.2]
    simp [hd, List.append_assoc]

/-- The per-file loop distributes over list append: process the first
chunk, then continue from its resulting entries and changed flag. -/
theorem gfcadLoop_append (o : Oracles) (nowDate ct now ttl : Int) :
    ∀ (l1 l2 : List FPath) (entries : List (FPath × FileCommitRecord))
      (changed : Bool),
      gfcadLoop o nowDate ct now ttl entries changed (l1 ++ l2) =
        match gfcadLoop o nowDate ct now ttl entries changed l1 with
        | .error e => .error e
        | .ok r => gfcadLoop o nowDate ct now ttl r.1 r.2 l2 := by
  intro l1
  induction l1 with
  | nil => intro l2 entries changed; simp [gfcadLoop]
  | cons p rest ih =>
    intro l2 entries changed
    by_cases hc :
        ((lookupC entries p).isSome && decide (now - ct < ttl)) = true
    · simp only [List.cons_append, gfcadLoop, hc, if_true]
      exact ih l2 entries changed
    · have hc' : ((lookupC entries p).isSome &&
          decide (now - ct < ttl)) = false := by
        revert hc; cases ((lookupC entries p).isSome &&
          decide (now - ct < ttl)) <;> simp
      simp only [List.cons_append, gfcadLoop, hc', Bool.false_eq_true,
        if_false]
      cases hcd : o.cd p with
      | none => rfl
      | some d => exact ih l2 (setEntry entries p (deriveRec o nowDate p d)) true

/-- Chunked run of the per-file loop when the first chunk succeeds. -/
theorem gfcadLoop_append_ok (o : Oracles) (nowDate ct now ttl : Int)
    (l1 l2 : List FPath) (entries e2 : List (FPath × FileCommitRecord))
    (changed c2 : Bool)
    (h : gfcadLoop o nowDate ct now ttl entries changed l1 = .ok (e2, c2)) :
    gfcadLoop o nowDate ct now ttl entries changed (l1 ++ l2) =
      gfcadLoop o nowDate ct now ttl e2 c2 l2 := by
  rw [gfcadLoop_append o nowDate ct now ttl l1 l2 entries changed, h]

/-- check_update in terms of a successful run of the per-file loop. -/
theorem check_update_of_loop (o : Oracles) (nowDate : Int) (ns : CommitsNS)
    (paths : List FPath) (now ttl : Int)
    (e2 : List (FPath × FileCommitRecord)) (c2 : Bool)
    (h : gfcadLoop o nowDate (ns.cache_time.getD 0) now ttl ns.entries false
      paths = .ok (e2, c2)) :
    check_update o nowDate ns paths now ttl =
      .ok (staleList e2,
           ⟨if c2 then some now else ns.cache_time, e2⟩, c2) := by
  unfold check_update get_files_commits_and_dates
  rw [h]

/-- A failing run of the per-file loop aborts get_files_commits_and_dates. -/
theorem gfcad_error (o : Oracles) (nowDate : Int) (ns : CommitsNS)
    (paths : List FPath) (now ttl : Int) (e : Nat)
    (h : gfcadLoop o nowDate (ns.cache_time.getD 0) now ttl ns.entries false
      paths = .error e) :
    get_files_commits_and_dates o nowDate ns paths now ttl = .error e := by
  unfold get_files_commits_and_dates
  rw [h]

/-- A failing batch aborts check_update with the same exit code. -/
theorem check_update_of_error (o : Oracles) (nowDate : Int) (ns : CommitsNS)
    (paths : List FPath) (now ttl : Int) (e : Nat)
    (h : get_files_commits_and_dates o nowDate ns paths now ttl = .error e) :
    check_update o nowDate ns paths now ttl = .error e := by
  unfold check_update
  rw [h]

/-- Full characterisation of the per-file loop: it never fails when every
requested path has a usable collected_date; a requested key ends up
re-derived iff it was absent or the namespace-wide freshness test failed,
unrequested keys are untouched, and the changed flag is raised iff some
requested key was re-derived. -/
theorem gfcadLoop_spec (o : Oracles) (nowDate ct now ttl : Int) :
    ∀ (paths : List FPath) (entries : List (FPath × FileCommitRecord))
      (changed : Bool),
      (∀ p ∈ paths, (o.cd p).isSome) →
      ∃ entries2 changed2,
        gfcadLoop o nowDate ct now ttl entries changed paths =
          .ok (entries2, changed2) ∧
        changed2 = (changed || paths.any fun p =>
          !((lookupC entries p).isSome && decide (now - ct < ttl))) ∧
        (∀ p ∈ paths,
          lookupC entries2 p =
            if (lookupC entries p).isSome && decide (now - ct < ttl) then
              lookupC entries p
            else some (deriveRec o nowDate p ((o.cd p).getD 0))) ∧
        (∀ q, q ∉ paths → lookupC entries2 q = lookupC entries q) := by
  intro paths
  induction paths with
  | nil =>
    intro entries changed _
    exact ⟨entries, changed, rfl, by simp, by simp, fun q _ => rfl⟩
  | cons p rest ih =>
    intro entries changed hcd
    by_cases hc :
        ((lookupC entries p).isSome && decide (now - ct < ttl)) = true
    · obtain ⟨e2, c2, heq, hch, hmem, hpres⟩ :=
        ih entries changed (fun x hx => hcd x (List.mem_cons_of_mem p hx))
      refine ⟨e2, c2, ?_, ?_, ?_, ?_⟩
      · simp only [gfcadLoop, hc, if_true]
        exact heq
      · rw [hch]
        have hfp : (!((lookupC entries p).isSome &&
            decide (now - ct < ttl))) = false := by rw [hc]; rfl
        rw [List.any_cons, hfp, Bool.false_or]
      · intro x hx
        rcases List.mem_cons.mp hx with rfl | hx'
        · rw [if_pos hc]
          by_cases hp : x ∈ rest
          · have hm := hmem x hp
            rw [if_pos hc] at hm
            exact hm
          · exact hpres x hp
        · exact hmem x hx'
      · intro q hq
        exact hpres q (fun h => hq (List.mem_cons_of_mem p h))
    · have hc' : ((lookupC entries p).isSome &&
          decide (now - ct < ttl)) = false := by
        revert hc; cases ((lookupC entries p).isSome &&
          decide (now - ct < ttl)) <;> simp
      obtain ⟨d, hd⟩ :=
        Option.isSome_iff_exists.mp (hcd p (List.mem_cons_self p rest))
      obtain ⟨e2, c2, heq, hch, hmem, hpres⟩ :=
        ih (setEntry entries p (deriveRec o nowDate p d)) true
          (fun x hx => hcd x (List.mem_cons_of_mem p hx))
      have keyP : lookupC e2 p =
          some (deriveRec o nowDate p ((o.cd p).getD 0)) := by
        rw [hd]
        simp only [Option.getD_some]
        by_cases hp : p ∈ rest
        · have hm := hmem p hp
          rw [lookupC_setEntry_self entries p (deriveRec o nowDate p d)] at hm
          rw [hd] at hm
          simp only [Option.getD_some] at hm
          rw [ite_self] at hm
          exact hm
        · have hpr := hpres p hp
          rw [lookupC_setEntry_self entries p (deriveRec o nowDate p d)] at hpr
          exact hpr
      refine ⟨e2, c2, ?_, ?_, ?_, ?_⟩
      · simp only [gfcadLoop, hc', Bool.false_eq_true, if_false, hd]
        exact heq
      · rw [hch]
        have hfp : (!((lookupC entries p).isSome &&
            decide (now - ct < ttl))) = true := by rw [hc']; rfl
        rw [List.any_cons, hfp]
        simp only [Bool.true_or, Bool.or_true]
      · intro x hx
        by_cases hxp : x = p
        · subst hxp
          rw [if_neg (by rw [hc']; exact Bool.false_ne_true)]
          exact keyP
        · rcases List.mem_cons.mp hx with rfl | hx'
          · exact absurd rfl hxp
          · have hm := hmem x hx'
            rw [lookupC_setEntry_ne entries p x _ hxp] at hm
            exact hm
      · intro q hq
        have hqp : q ≠ p := fun h => hq (h ▸ List.mem_cons_self p rest)
        have hqr : q ∉ rest := fun h => hq (List.mem_cons_of_mem p h)
        have hpr := hpres q hqr
        rw [lookupC_setEntry_ne entries p q _ hqp] at hpr
        exact hpr

/-- Claim C5: in the commits namespace a requested key is re-derived iff
it is absent or the shared cache_time is at least TTL old; keys that are
not re-derived, and keys outside the request, keep their stored payloads;
the changed flag (also the persisted-to-disk indicator) is raised iff at
least one key was re-derived, in which case the single shared cache_time
becomes now (so the whole namespace is fresh again), and otherwise
cache_time and the persisted file are untouched. -/
theorem c5_commits_namespace_batch (o : Oracles) (nowDate : Int)
    (ns : CommitsNS) (paths : List FPath) (now ttl : Int)
    (hcd : ∀ p ∈ paths, (o.cd p).isSome) :
    ∃ ns2 changed,
      get_files_commits_and_dates o nowDate ns paths now ttl =
        .ok (ns2, changed) ∧
      changed = (paths.any fun p =>
        !((lookupC ns.entries p).isSome &&
          decide (now - ns.cache_time.getD 0 < ttl))) ∧
      ns2.cache_time = (if changed then some now else ns.cache_time) ∧
      (∀ p ∈ paths,
        lookupC ns2.entries p =
          if (lookupC ns.entries p).isSome &&
              decide (now - ns.cache_time.getD 0 < ttl) then
            lookupC ns.entries p
          else some (deriveRec o nowDate p ((o.cd p).getD 0))) ∧
      (∀ q, q ∉ paths → lookupC ns2.entries q = lookupC ns.entries q) := by
  obtain ⟨e2, c2, heq, hch, hmem, hpres⟩ :=
    gfcadLoop_spec o nowDate (ns.cache_time.getD 0) now ttl paths
      ns.entries false hcd
  refine ⟨⟨if c2 then some now else ns.cache_time, e2⟩, c2, ?_, ?_, rfl,
    hmem, hpres⟩
  · simp [get_files_commits_and_dates, heq]
  · rw [hch, Bool.false_or]

/-- Witness for claim C5: a cold empty namespace with one requested path
"a" at instant 1000 with the three-day TTL. -/
theorem c5_commits_namespace_batch_witness :
    ∃ ns2 changed,
      get_files_commits_and_dates oracle0 5 ⟨none, []⟩ [['a']] 1000
          cache_ttl = .ok (ns2, changed) ∧
      changed = ([['a']].any fun p =>
        !((lookupC (CommitsNS.mk none []).entries p).isSome &&
          decide (1000 - (CommitsNS.mk none []).cache_time.getD 0 <
            cache_ttl))) ∧
      ns2.cache_time =
        (if changed then some 1000 else (CommitsNS.mk none []).cache_time) ∧
      (∀ p ∈ [['a']],
        lookupC ns2.entries p =
          if (lookupC (CommitsNS.mk none []).entries p).isSome &&
              decide (1000 - (CommitsNS.mk none []).cache_time.getD 0 <
                cache_ttl) then
            lookupC (CommitsNS.mk none []).entries p
          else some (deriveRec oracle0 5 p ((oracle0.cd p).getD 0))) ∧
      (∀ q, q ∉ [['a']] →
        lookupC ns2.entries q = lookupC (CommitsNS.mk none []).entries q) :=
  c5_commits_namespace_batch oracle0 5 ⟨none, []⟩ [['a']] 1000 cache_ttl
    (by intro p _; simp [oracle0])

/-- Claim C1 counterexample: with an empty scanned file list but a warm
cache holding a stale record for the ghost path, check_update reports the
ghost path — a path outside the currently scanned list — because the
reporting loop iterates the merged cache mapping, not the scanned list. -/
theorem c1_stale_output_counterexample :
    check_update oracle0 0 ns1 [] 100 cache_ttl = .ok ([ghostP], ns1, false) ∧
    ghostP ∉ ([] : List FPath) := by
  constructor
  · decide
  · simp

/-- Claim C1 (amended): when the commits namespace starts empty (cold
cache) and the scanned list has no duplicates, the returned list contains
exactly the scanned paths whose derived record is flagged stale, in the
insertion order of the scanned list — so in this situation no path outside
the scanned list can appear.  (In general the output is the stale subset
of the merged cache mapping in its insertion order, which may include
previously cached paths outside the current scan.) -/
theorem c1_cold_scan_stale_list (o : Oracles) (nowDate : Int)
    (ns : CommitsNS) (paths : List FPath) (now ttl : Int)
    (hcold : ns.entries = [])
    (hcd : ∀ p ∈ paths, (o.cd p).isSome)
    (hnd : paths.Nodup) :
    ∃ rest2, check_update o nowDate ns paths now ttl =
      .ok (paths.filter
            (fun p => isStale (deriveRec o nowDate p ((o.cd p).getD 0))),
           rest2) := by
  have hloop : gfcadLoop o nowDate (ns.cache_time.getD 0) now ttl ns.entries
      false paths = .ok (paths.map
        (fun p => (p, deriveRec o nowDate p ((o.cd p).getD 0))),
        false || !paths.isEmpty) := by
    rw [hcold]
    have hcl := gfcadLoop_cold o nowDate (ns.cache_time.getD 0) now ttl paths
      [] false hcd (fun p _ => rfl) hnd
    rwa [List.nil_append] at hcl
  refine ⟨(⟨if (false || !paths.isEmpty) then some now else ns.cache_time,
            paths.map (fun p => (p, deriveRec o nowDate p ((o.cd p).getD 0)))⟩,
           false || !paths.isEmpty), ?_⟩
  rw [check_update_of_loop o nowDate ns paths now ttl _ _ hloop,
    staleList_map]

/-- Witness for the amended claim C1: one scanned path "a" against a cold
cache. -/
theorem c1_cold_scan_stale_list_witness :
    ∃ rest2, check_update oracle0 5 ⟨none, []⟩ [['a']] 1000 cache_ttl =
      .ok ([['a']].filter
            (fun p => isStale (deriveRec oracle0 5 p ((oracle0.cd p).getD 0))),
           rest2) :=
  c1_cold_scan_stale_list oracle0 5 ⟨none, []⟩ [['a']] 1000 cache_ttl rfl
    (by intro p _; simp [oracle0]) (by simp)

/-- Claim C8 counterexample: the scanned file badP has no usable
collected_date in its front matter, yet the process does not terminate:
its cache entry is fresh, so the loop skips it without ever reading the
front matter, and check_update completes normally. -/
theorem c8_fatal_counterexample :
    oracleBad.cd badP = none ∧
    check_update oracleBad 0 nsBad [badP] 100 cache_ttl =
      .ok ([badP], nsBad, false) := by
  constructor
  · rfl
  · decide

/-- Claim C8 (amended): when a scanned file that actually gets processed
(here: against a cache with no usable entries, so every scanned file is
processed) lacks a usable collected_date, the run aborts with exit status
1 — whatever files follow it in scan order, none of them is checked and no
staleness output is produced at all. -/
theorem c8_fatal_amended (o : Oracles) (nowDate now ttl : Int)
    (ns : CommitsNS) (pre post : List FPath) (bad : FPath)
    (hcold : ns.entries = [])
    (h1 : ∀ p ∈ pre, (o.cd p).isSome)
    (h2 : o.cd bad = none)
    (hnd : pre.Nodup) :
    check_update o nowDate ns (pre ++ bad :: post) now ttl = .error 1 := by
  have hbadpre : bad ∉ pre := fun hmem => by
    have hx := h1 bad hmem
    rw [h2] at hx
    exact Bool.noConfusion hx
  have hloop_pre : gfcadLoop o nowDate (ns.cache_time.getD 0) now ttl
      ns.entries false pre = .ok (pre.map
        (fun p => (p, deriveRec o nowDate p ((o.cd p).getD 0))),
        false || !pre.isEmpty) := by
    rw [hcold]
    have hcl := gfcadLoop_cold o nowDate (ns.cache_time.getD 0) now ttl pre
      [] false h1 (fun p _ => rfl) hnd
    rwa [List.nil_append] at hcl
  have hlk : lookupC (pre.map
      (fun p => (p, deriveRec o nowDate p ((o.cd p).getD 0)))) bad = none :=
    lookupC_map_of_not_mem _ pre bad hbadpre
  have hbadstep : gfcadLoop o nowDate (ns.cache_time.getD 0) now ttl
      (pre.map (fun p => (p, deriveRec o nowDate p ((o.cd p).getD 0))))
      (false || !pre.isEmpty) (bad :: post) = .error 1 := by
    simp [gfcadLoop, hlk, h2]
  have hloop : gfcadLoop o nowDate (ns.cache_time.getD 0) now ttl ns.entries
      false (pre ++ bad :: post) = .error 1 := by
    rw [gfcadLoop_append_ok o nowDate (ns.cache_time.getD 0) now ttl pre
      (bad :: post) ns.entries _ false _ hloop_pre]
    exact hbadstep
  exact check_update_of_error o nowDate ns (pre ++ bad :: post) now ttl 1
    (gfcad_error o nowDate ns (pre ++ bad :: post) now ttl 1 hloop)

/-- Witness for the amended claim C8: a single scanned bad file against a
cold cache aborts the run with exit status 1. -/
theorem c8_fatal_amended_witness :
    check_update oracleBad 0 ⟨none, []⟩ ([] ++ badP :: []) 100 cache_ttl =
      .error 1 :=
  c8_fatal_amended oracleBad 0 100 cache_ttl ⟨none, []⟩ [] [] badP rfl
    (by simp) rfl (by simp)

end CheckTranslation
